import Mathlib

/-!
Verification of the modular string-processing pipeline (C sources under
`src/`).  The C code is shallowly embedded: pure fragments become Lean
functions, the stateful ring buffer becomes explicit state passing on a
`CPQueue` structure, C strings become `List Char`, heap pointers (where a
claim is about allocation and freeing) become addresses into an explicit
`Heap`, and fallible calls return `Option` / `Except`.  Machine integers of
the C code stay well inside `int` range in every modelled path, so they are
embedded as `Nat` / `Int` without wrap-around.
-/

namespace Pipeline

/-! ## Monitor (src/plugins/sync/monitor.c)

A monitor is a mutex, a condition variable and a `signaled` flag.  The mutex
and condition variable only serialize access; the sequential embedding keeps
just the flag.  `monitor_wait` returns `some (0, m)` on the path that
observes `signaled == 1` (monitor.c lines 126-135: return 0 with the flag
untouched); `none` models the path that parks in `pthread_cond_wait`
(lines 137-145), i.e. the caller blocks until some other thread signals. -/

structure Monitor where
  signaled : Bool
  deriving DecidableEq, Repr

/-- monitor.c `monitor_init`: the flag starts at 0. -/
def monitor_init : Monitor := ⟨false⟩

/-- monitor.c `monitor_signal`: sets `signaled = 1` (and broadcasts). -/
def monitor_signal (_m : Monitor) : Monitor := ⟨true⟩

/-- monitor.c `monitor_reset`: sets `signaled = 0`. -/
def monitor_reset (_m : Monitor) : Monitor := ⟨false⟩

/-- monitor.c `monitor_wait`: if the flag is already set, return success (0)
leaving the flag set; otherwise the thread parks on the condition variable
(modelled as `none`: no sequential continuation). -/
def monitor_wait (m : Monitor) : Option (Int × Monitor) :=
  if m.signaled then some (0, m) else none

/-! ## Bounded hand-off buffer (src/plugins/sync/consumer_producer.c)

`consumer_producer_t` holds `capacity`, `count`, ring indices `head` and
`tail`, and a calloc'd `items` array of `char*` slots (`NULL` = vacant).
The array is embedded as a function `Nat → Option α` (`none` = `NULL`);
the element type is a parameter because the same ring is used with plain
byte-string payloads and, for the ownership claims, with heap addresses. -/

structure CPQueue (α : Type) where
  capacity : Nat
  count : Nat
  head : Nat
  tail : Nat
  items : Nat → Option α

/-- consumer_producer.c `consumer_producer_init` (lines 10-67): rejects
`capacity <= 0` with the "Invalid capacity" message; otherwise zeroes
`count`, `head`, `tail` and callocs the slot array (all slots `NULL`).
Allocation and monitor construction are modelled as succeeding. -/
def consumer_producer_init (α : Type) (capacity : Int) :
    Except String (CPQueue α) :=
  if capacity ≤ 0 then .error "Invalid capacity"
  else .ok ⟨capacity.toNat, 0, 0, 0, fun _ => none⟩

/-- The slot mutation of a successful `consumer_producer_put`
(consumer_producer.c lines 146-148): `items[tail] = copy; tail = (tail+1) %
capacity; count++`. -/
def CPQueue.insertRecord (q : CPQueue α) (a : α) : CPQueue α :=
  { q with
    items := fun j => if j = q.tail then some a else q.items j
    tail := (q.tail + 1) % q.capacity
    count := q.count + 1 }

/-- The slot mutation of a successful `consumer_producer_get`
(consumer_producer.c lines 263-267): read `items[head]`, null the slot,
`head = (head+1) % capacity; count--`. -/
def CPQueue.removeRecord (q : CPQueue α) : Option α × CPQueue α :=
  (q.items q.head,
   { q with
     items := fun j => if j = q.head then none else q.items j
     head := (q.head + 1) % q.capacity
     count := q.count - 1 })

/-- consumer_producer.c `consumer_producer_put` (lines 124-170), sequential
view of the guarded retry loop: when `count < capacity` the put takes a copy
of the bytes and performs the slot mutation (`some`); when the buffer is
full the caller resets `not_full` and parks on it (`none`: the operation
does not complete without another thread).  At the value level the fresh
copy made by `strdup` carries the same bytes as the argument, so it is the
argument itself here; the allocation-level view is `consumer_producer_put_heap`
below. -/
def consumer_producer_put (q : CPQueue α) (item : α) : Option (CPQueue α) :=
  if q.count < q.capacity then some (q.insertRecord item) else none

/-- consumer_producer.c `consumer_producer_get` (lines 235-295), sequential
view: when `count > 0` it removes and returns `items[head]` (`some`); when
the buffer is empty the caller resets `not_empty` and parks (`none`). -/
def consumer_producer_get (q : CPQueue α) : Option (Option α × CPQueue α) :=
  if 0 < q.count then some q.removeRecord else none

/-- Membership of index `i` in the occupied ring window
`[head, head+count) mod capacity` — the window named by the specification. -/
def inWindow (cap hd cnt i : Nat) : Prop :=
  ∃ k, k < cnt ∧ i = (hd + k) % cap

/-- The buffer invariant of the specification: `0 ≤ count ≤ capacity` (the
lower bound is inherent to `Nat`), the ring indices are in range, `tail`
sits `count` slots past `head`, and a slot is non-null exactly when its
index lies in `[head, head+count) mod capacity`. -/
def QueueInv (q : CPQueue α) : Prop :=
  0 < q.capacity ∧
  q.count ≤ q.capacity ∧
  q.head < q.capacity ∧
  q.tail = (q.head + q.count) % q.capacity ∧
  ∀ i, i < q.capacity → ((q.items i).isSome ↔ inWindow q.capacity q.head q.count i)

/-- Abstraction function: the sequence of records currently held, head
first, read off the ring window. -/
def absQ (q : CPQueue α) : List α :=
  (List.range q.count).filterMap (fun k => q.items ((q.head + k) % q.capacity))

/-! ### Ring-window arithmetic -/

theorem mod_shift_inj {cap hd k m : Nat} (hk : k < cap) (hm : m < cap)
    (h : (hd + k) % cap = (hd + m) % cap) : k = m := by
  have hmod : Nat.ModEq cap k m := Nat.ModEq.add_left_cancel (Nat.ModEq.refl hd) h
  have hke : k % cap = m % cap := hmod
  rwa [Nat.mod_eq_of_lt hk, Nat.mod_eq_of_lt hm] at hke

theorem filterMap_congr_on {l : List α} {f g : α → Option β}
    (h : ∀ a ∈ l, f a = g a) : l.filterMap f = l.filterMap g := by
  induction l with
  | nil => rfl
  | cons x xs ih =>
    simp only [List.filterMap_cons, h x (List.mem_cons_self x xs)]
    rw [ih (fun a ha => h a (List.mem_cons_of_mem x ha))]

theorem range_succ_filterMap_shift (f : Nat → Option β) (n : Nat) :
    (List.range (n + 1)).filterMap f =
      match f 0 with
      | none => (List.range n).filterMap (fun k => f (k + 1))
      | some b => b :: (List.range n).filterMap (fun k => f (k + 1)) := by
  rw [List.range_succ_eq_map, List.filterMap_cons, List.filterMap_map]
  rfl

/-- A successful put (`count < capacity`) preserves the buffer invariant and
appends the new record at the tail of the abstract sequence. -/
theorem insertRecord_spec (q : CPQueue α) (a : α)
    (hinv : QueueInv q) (hlt : q.count < q.capacity) :
    QueueInv (q.insertRecord a) ∧ absQ (q.insertRecord a) = absQ q ++ [a] := by
  obtain ⟨hcap, hcnt, hhd, htl, hslots⟩ := hinv
  have hfresh : ∀ k, k < q.count → (q.head + k) % q.capacity ≠ q.tail := by
    intro k hk heq
    rw [htl] at heq
    exact absurd (mod_shift_inj (lt_of_lt_of_le hk (le_of_lt hlt)) hlt heq) (Nat.ne_of_lt hk)
  constructor
  · refine ⟨hcap, hlt, hhd, ?_, ?_⟩
    · show (q.tail + 1) % q.capacity = (q.head + (q.count + 1)) % q.capacity
      rw [htl, Nat.mod_add_mod, ← Nat.add_assoc]
    · intro i hi
      show (if i = q.tail then some a else q.items i).isSome ↔
        inWindow q.capacity q.head (q.count + 1) i
      by_cases hit : i = q.tail
      · subst hit
        constructor
        · intro _
          exact ⟨q.count, Nat.lt_succ_self _, htl⟩
        · intro _
          simp
      · rw [if_neg hit]
        rw [hslots i hi]
        constructor
        · rintro ⟨k, hk, hik⟩
          exact ⟨k, Nat.lt_succ_of_lt hk, hik⟩
        · rintro ⟨k, hk, hik⟩
          rcases Nat.lt_succ_iff_lt_or_eq.mp hk with hk' | hk'
          · exact ⟨k, hk', hik⟩
          · subst hk'
            exact absurd (hik.trans htl.symm) hit
  · show (List.range (q.count + 1)).filterMap
        (fun k => if (q.head + k) % q.capacity = q.tail then some a
                  else q.items ((q.head + k) % q.capacity)) = absQ q ++ [a]
    rw [List.range_succ, List.filterMap_append]
    congr 1
    · exact filterMap_congr_on (fun k hk => by
        rw [if_neg (hfresh k (List.mem_range.mp hk))])
    · simp only [List.filterMap_cons, List.filterMap_nil]
      rw [if_pos htl.symm]

/-- A successful get (`count > 0`) returns the record at the head, preserves
the buffer invariant, and pops the head of the abstract sequence. -/
theorem removeRecord_spec (q : CPQueue α) (hinv : QueueInv q) (hpos : 0 < q.count) :
    ∃ r, q.removeRecord.1 = some r ∧ QueueInv q.removeRecord.2 ∧
      absQ q = r :: absQ q.removeRecord.2 := by
  obtain ⟨hcap, hcnt, hhd, htl, hslots⟩ := hinv
  have hhd0 : (q.head + 0) % q.capacity = q.head := by
    rw [Nat.add_zero, Nat.mod_eq_of_lt hhd]
  have hhead_some : (q.items q.head).isSome :=
    (hslots q.head hhd).mpr ⟨0, hpos, hhd0.symm⟩
  obtain ⟨r, hr⟩ := Option.isSome_iff_exists.mp hhead_some
  have hne_head : ∀ k, k < q.count - 1 → (q.head + 1 + k) % q.capacity ≠ q.head := by
    intro k hk heq
    have h1k : 1 + k < q.capacity := by omega
    have heq' : (q.head + (1 + k)) % q.capacity = (q.head + 0) % q.capacity := by
      rw [hhd0, ← heq]
      congr 1
      omega
    have := mod_shift_inj h1k hcap heq'
    omega
  refine ⟨r, hr, ⟨hcap, ?_, ?_, ?_, ?_⟩, ?_⟩
  · show q.count - 1 ≤ q.capacity
    omega
  · show (q.head + 1) % q.capacity < q.capacity
    exact Nat.mod_lt _ hcap
  · show q.tail = ((q.head + 1) % q.capacity + (q.count - 1)) % q.capacity
    rw [Nat.mod_add_mod, htl]
    congr 1
    omega
  · intro i hi
    show (if i = q.head then none else q.items i).isSome ↔
      inWindow q.capacity ((q.head + 1) % q.capacity) (q.count - 1) i
    by_cases hih : i = q.head
    · subst hih
      constructor
      · intro habs
        rw [if_pos rfl] at habs
        exact absurd habs (by simp)
      · rintro ⟨k, hk, hik⟩
        rw [Nat.mod_add_mod] at hik
        exact absurd hik.symm (hne_head k hk)
    · rw [if_neg hih, hslots i hi]
      constructor
      · rintro ⟨k, hk, hik⟩
        rcases Nat.eq_zero_or_pos k with hk0 | hk0
        · subst hk0
          exact absurd (hik.trans hhd0) hih
        · refine ⟨k - 1, by omega, ?_⟩
          rw [Nat.mod_add_mod]
          rw [hik]
          congr 1
          omega
      · rintro ⟨k, hk, hik⟩
        rw [Nat.mod_add_mod] at hik
        refine ⟨1 + k, by omega, by rw [hik]; congr 1; omega⟩
  · show absQ q = r :: absQ q.removeRecord.2
    obtain ⟨c', hc'⟩ : ∃ c', q.count = c' + 1 := ⟨q.count - 1, by omega⟩
    have h2 : absQ q.removeRecord.2 =
        (List.range c').filterMap
          (fun k => if ((q.head + 1) % q.capacity + k) % q.capacity = q.head then none
                    else q.items (((q.head + 1) % q.capacity + k) % q.capacity)) := by
      show (List.range (q.count - 1)).filterMap _ = _
      rw [hc']
      rfl
    rw [h2]
    show (List.range q.count).filterMap (fun k => q.items ((q.head + k) % q.capacity)) = _
    rw [hc', range_succ_filterMap_shift]
    simp only [hhd0, hr]
    congr 1
    refine (filterMap_congr_on (fun k hk => ?_)).symm
    have hk' : k < c' := List.mem_range.mp hk
    rw [Nat.mod_add_mod]
    rw [if_neg (by
      have hne := hne_head k (by omega)
      intro hcontra
      exact hne (by rw [← hcontra]; congr 1; omega))]
    show q.items (((q.head + 1) + k) % q.capacity) = q.items ((q.head + (k + 1)) % q.capacity)
    congr 2
    omega

/-! ### Traces of buffer operations

To state the FIFO property the buffer is driven by an arbitrary sequence of
`put` and `get` calls.  `runOps` executes them sequentially with the
embedded `consumer_producer_put` / `consumer_producer_get`; a call whose
guard fails parks on its monitor and (with no other thread in a sequential
trace) never completes, so it changes nothing.  It returns the final buffer,
the records the completed puts inserted (in call order) and the records the
completed gets returned (in call order). -/

inductive QOp (α : Type) where
  | put : α → QOp α
  | get : QOp α

def runOps : CPQueue α → List (QOp α) → CPQueue α × List α × List α
  | q, [] => (q, [], [])
  | q, QOp.put a :: ops =>
    match consumer_producer_put q a with
    | some q' =>
      let r := runOps q' ops
      (r.1, a :: r.2.1, r.2.2)
    | none => runOps q ops
  | q, QOp.get :: ops =>
    match consumer_producer_get q with
    | some (some x, q') =>
      let r := runOps q' ops
      (r.1, r.2.1, x :: r.2.2)
    | some (none, q') => runOps q' ops
    | none => runOps q ops

theorem runOps_put_completed {q q' : CPQueue α} {a : α}
    (h : consumer_producer_put q a = some q') (ops : List (QOp α)) :
    runOps q (QOp.put a :: ops) =
      ((runOps q' ops).1, a :: (runOps q' ops).2.1, (runOps q' ops).2.2) := by
  conv_lhs => unfold runOps
  rw [h]

theorem runOps_put_blocked {q : CPQueue α} {a : α}
    (h : consumer_producer_put q a = none) (ops : List (QOp α)) :
    runOps q (QOp.put a :: ops) = runOps q ops := by
  conv_lhs => unfold runOps
  rw [h]

theorem runOps_get_completed {q q' : CPQueue α} {x : α}
    (h : consumer_producer_get q = some (some x, q')) (ops : List (QOp α)) :
    runOps q (QOp.get :: ops) =
      ((runOps q' ops).1, (runOps q' ops).2.1, x :: (runOps q' ops).2.2) := by
  conv_lhs => unfold runOps
  rw [h]

theorem runOps_get_blocked {q : CPQueue α}
    (h : consumer_producer_get q = none) (ops : List (QOp α)) :
    runOps q (QOp.get :: ops) = runOps q ops := by
  conv_lhs => unfold runOps
  rw [h]

/-- Main accounting lemma: along any trace the invariant is preserved and
`returned-by-get ++ still-buffered = previously-buffered ++ inserted-by-put`.
FIFO delivery and the reachable-state invariant both read off from it. -/
theorem runOps_spec (ops : List (QOp α)) : ∀ q : CPQueue α, QueueInv q →
    QueueInv (runOps q ops).1 ∧
      (runOps q ops).2.2 ++ absQ (runOps q ops).1 = absQ q ++ (runOps q ops).2.1 := by
  induction ops with
  | nil =>
    intro q h
    exact ⟨h, by simp [runOps]⟩
  | cons op ops ih =>
    intro q h
    cases op with
    | put a =>
      by_cases hlt : q.count < q.capacity
      · have hput : consumer_producer_put q a = some (q.insertRecord a) := by
          unfold consumer_producer_put
          rw [if_pos hlt]
        obtain ⟨hinv', habs'⟩ := insertRecord_spec q a h hlt
        obtain ⟨ih1, ih2⟩ := ih (q.insertRecord a) hinv'
        rw [runOps_put_completed hput ops]
        refine ⟨ih1, ?_⟩
        rw [ih2, habs', List.append_assoc]
        rfl
      · have hput : consumer_producer_put q a = none := by
          unfold consumer_producer_put
          rw [if_neg hlt]
        rw [runOps_put_blocked hput ops]
        exact ih q h
    | get =>
      by_cases hpos : 0 < q.count
      · obtain ⟨r, hr1, hinv', habs⟩ := removeRecord_spec q h hpos
        have hget : consumer_producer_get q = some (some r, q.removeRecord.2) := by
          unfold consumer_producer_get
          rw [if_pos hpos, ← hr1]
        obtain ⟨ih1, ih2⟩ := ih q.removeRecord.2 hinv'
        rw [runOps_get_completed hget ops]
        refine ⟨ih1, ?_⟩
        rw [habs]
        show r :: ((runOps q.removeRecord.2 ops).2.2 ++ absQ (runOps q.removeRecord.2 ops).1) = _
        rw [ih2]
        rfl
      · have hget : consumer_producer_get q = none := by
          unfold consumer_producer_get
          rw [if_neg hpos]
        rw [runOps_get_blocked hget ops]
        exact ih q h

/-- `consumer_producer_init` establishes the invariant with an empty
abstract sequence. -/
theorem consumer_producer_init_spec {α : Type} {c : Int} {q : CPQueue α}
    (h : consumer_producer_init α c = .ok q) : QueueInv q ∧ absQ q = [] := by
  unfold consumer_producer_init at h
  by_cases hc : c ≤ 0
  · rw [if_pos hc] at h
    exact absurd h (by simp)
  · rw [if_neg hc] at h
    have hq : q = ⟨c.toNat, 0, 0, 0, fun _ => none⟩ := by
      cases h
      rfl
    subst hq
    have hcap : 0 < c.toNat := by omega
    refine ⟨⟨hcap, Nat.zero_le _, hcap, by simp, ?_⟩, by simp [absQ]⟩
    intro i hi
    simp only [Option.isSome_none]
    constructor
    · intro hfalse
      exact absurd hfalse (by simp)
    · rintro ⟨k, hk, -⟩
      exact absurd hk (Nat.not_lt_zero k)

/-! ### Concrete buffers used by the witnesses -/

def witQ0 : CPQueue (List Char) := ⟨1, 0, 0, 0, fun _ => none⟩

def witQ1 : CPQueue (List Char) := witQ0.insertRecord "ab".toList

def witQ2 : CPQueue (List Char) := witQ1.removeRecord.2

theorem witQ0_inv : QueueInv witQ0 :=
  (consumer_producer_init_spec (c := 1) rfl).1

theorem witQ1_inv : QueueInv witQ1 :=
  (insertRecord_spec witQ0 "ab".toList witQ0_inv (by decide)).1

/-- C2: for every HandoffBuffer at every quiescent point, `0 ≤ count ≤
capacity`, the slots at indices `[head, head+count) mod capacity` hold
exactly the non-null owned records and all other slots are vacant; the
invariant is established by `consumer_producer_init` and preserved by every
completed `consumer_producer_put` and `consumer_producer_get`, hence holds
at every quiescent point of every trace. -/
theorem C2_buffer_invariant :
    (∀ (c : Int) (q : CPQueue (List Char)),
        consumer_producer_init (List Char) c = .ok q → QueueInv q) ∧
    (∀ (q : CPQueue (List Char)) (a : List Char) (q' : CPQueue (List Char)),
        QueueInv q → consumer_producer_put q a = some q' → QueueInv q') ∧
    (∀ (q : CPQueue (List Char)) (r : Option (List Char)) (q' : CPQueue (List Char)),
        QueueInv q → consumer_producer_get q = some (r, q') → QueueInv q') ∧
    (∀ (c : Int) (q : CPQueue (List Char)) (ops : List (QOp (List Char))),
        consumer_producer_init (List Char) c = .ok q → QueueInv (runOps q ops).1) := by
  refine ⟨?_, ?_, ?_, ?_⟩
  · intro c q h
    exact (consumer_producer_init_spec h).1
  · intro q a q' hinv hput
    unfold consumer_producer_put at hput
    by_cases hlt : q.count < q.capacity
    · rw [if_pos hlt] at hput
      injection hput with hq
      rw [← hq]
      exact (insertRecord_spec q a hinv hlt).1
    · rw [if_neg hlt] at hput
      exact absurd hput (by simp)
  · intro q r q' hinv hget
    unfold consumer_producer_get at hget
    by_cases hpos : 0 < q.count
    · rw [if_pos hpos] at hget
      injection hget with hq
      have hq' : q' = q.removeRecord.2 := by rw [hq]
      obtain ⟨x, -, hinv', -⟩ := removeRecord_spec q hinv hpos
      rw [hq']
      exact hinv'
    · rw [if_neg hpos] at hget
      exact absurd hget (by simp)
  · intro c q ops h
    exact (runOps_spec ops q (consumer_producer_init_spec h).1).1

theorem C2_buffer_invariant_witness :
    QueueInv witQ0 ∧ QueueInv witQ1 ∧ QueueInv witQ2 ∧
      QueueInv (runOps witQ0 [QOp.put "ab".toList, QOp.get]).1 :=
  ⟨C2_buffer_invariant.1 1 witQ0 rfl,
   C2_buffer_invariant.2.1 witQ0 "ab".toList witQ1 witQ0_inv rfl,
   C2_buffer_invariant.2.2.1 witQ1 witQ1.removeRecord.1 witQ2 witQ1_inv rfl,
   C2_buffer_invariant.2.2.2 1 witQ0 [QOp.put "ab".toList, QOp.get] rfl⟩

/-- C3: `consumer_producer_get` removes and returns the record at the head,
and delivery is FIFO: along any trace of puts and gets starting from a
freshly initialized buffer, the sequence of records returned by the
completed gets is a prefix of the sequence of records inserted by the
completed puts, in the same order. -/
theorem C3_fifo_delivery :
    (∀ (q : CPQueue (List Char)) (r : Option (List Char)) (q' : CPQueue (List Char)),
        QueueInv q → consumer_producer_get q = some (r, q') →
        r = (absQ q).head? ∧ absQ q' = (absQ q).tail) ∧
    (∀ (c : Int) (q0 : CPQueue (List Char)) (ops : List (QOp (List Char))),
        consumer_producer_init (List Char) c = .ok q0 →
        ∃ rest, (runOps q0 ops).2.1 = (runOps q0 ops).2.2 ++ rest) := by
  constructor
  · intro q r q' hinv hget
    unfold consumer_producer_get at hget
    by_cases hpos : 0 < q.count
    · rw [if_pos hpos] at hget
      injection hget with hq
      have hr : r = q.removeRecord.1 := by rw [hq]
      have hq' : q' = q.removeRecord.2 := by rw [hq]
      obtain ⟨x, hx, -, habs⟩ := removeRecord_spec q hinv hpos
      subst hr
      subst hq'
      rw [hx, habs]
      exact ⟨rfl, rfl⟩
    · rw [if_neg hpos] at hget
      exact absurd hget (by simp)
  · intro c q0 ops h
    obtain ⟨hinv, habs⟩ := consumer_producer_init_spec h
    obtain ⟨-, hacct⟩ := runOps_spec ops q0 hinv
    rw [habs] at hacct
    exact ⟨absQ (runOps q0 ops).1, by rw [hacct]; rfl⟩

theorem C3_fifo_delivery_witness :
    (witQ1.removeRecord.1 = (absQ witQ1).head? ∧ absQ witQ2 = (absQ witQ1).tail) ∧
    (∃ rest,
      (runOps witQ0 [QOp.put "ab".toList, QOp.get, QOp.put "cd".toList]).2.1 =
        (runOps witQ0 [QOp.put "ab".toList, QOp.get, QOp.put "cd".toList]).2.2 ++ rest) :=
  ⟨C3_fifo_delivery.1 witQ1 witQ1.removeRecord.1 witQ2 witQ1_inv rfl,
   C3_fifo_delivery.2 1 witQ0 [QOp.put "ab".toList, QOp.get, QOp.put "cd".toList] rfl⟩

/-- C4: for the monitor, `monitor_signal` sets the latched flag; a
`monitor_wait` performed after a signal returns success (0) even though the
signal was issued while no waiter existed (the flag is latched, monitor.c
lines 126-135); `monitor_wait` never changes the flag — on success it
returns with the monitor exactly as it found it — and only `monitor_reset`
puts the flag back to false while `monitor_signal` always leaves it true. -/
theorem C4_monitor_latch (m : Monitor) :
    (monitor_signal m).signaled = true ∧
    monitor_wait (monitor_signal m) = some (0, monitor_signal m) ∧
    (∀ m' : Monitor,
      match monitor_wait m' with
      | some rp => rp.1 = 0 ∧ rp.2 = m'
      | none => m'.signaled = false) ∧
    (monitor_reset m).signaled = false := by
  refine ⟨rfl, rfl, ?_, rfl⟩
  intro m'
  rcases m' with ⟨b⟩
  cases b <;> simp [monitor_wait]

/-! ## Stage worker loop (src/plugins/plugin_common.c, `plugin_consumer_thread`)

The consumer thread repeatedly gets a record from its queue; on `<END>` it
forwards the sentinel downstream (if a callback is attached), marks itself
finished, signals the `finished` monitor, frees the record and breaks; on
any other record it applies the transformation, skips the record when the
transformation returns NULL, otherwise forwards the result and frees both
strings (lines 84-165).  `plugin_consumer_loop` is that loop over the
sequence of records the queue delivers; it returns the list of records
handed to the downstream callback and whether `finished` was signaled. -/

def sentinel : List Char := "<END>".toList

def plugin_consumer_loop (tr : List Char → Option (List Char)) (hasNext : Bool) :
    List (List Char) → List (List Char) × Bool
  | [] => ([], false)
  | r :: rest =>
    if r = sentinel then ((if hasNext then [r] else []), true)
    else
      match tr r with
      | none => plugin_consumer_loop tr hasNext rest
      | some p =>
        let out := plugin_consumer_loop tr hasNext rest
        ((if hasNext then p :: out.1 else out.1), out.2)

theorem plugin_consumer_loop_sentinel (tr : List Char → Option (List Char))
    (hasNext : Bool) (rest : List (List Char)) :
    plugin_consumer_loop tr hasNext (sentinel :: rest) =
      ((if hasNext then [sentinel] else []), true) := by
  conv_lhs => unfold plugin_consumer_loop
  rw [if_pos rfl]

theorem plugin_consumer_loop_skip {tr : List Char → Option (List Char)}
    {r : List Char} (hr : r ≠ sentinel) (hnone : tr r = none)
    (hasNext : Bool) (rest : List (List Char)) :
    plugin_consumer_loop tr hasNext (r :: rest) =
      plugin_consumer_loop tr hasNext rest := by
  conv_lhs => unfold plugin_consumer_loop
  rw [if_neg hr, hnone]

theorem plugin_consumer_loop_step {tr : List Char → Option (List Char)}
    {r p : List Char} (hr : r ≠ sentinel) (hp : tr r = some p)
    (hasNext : Bool) (rest : List (List Char)) :
    plugin_consumer_loop tr hasNext (r :: rest) =
      ((if hasNext then p :: (plugin_consumer_loop tr hasNext rest).1
        else (plugin_consumer_loop tr hasNext rest).1),
       (plugin_consumer_loop tr hasNext rest).2) := by
  conv_lhs => unfold plugin_consumer_loop
  rw [if_neg hr, hp]

/-! ## Flipper plugin (src/plugins/flipper.c) -/

/-- flipper.c `flipper_transform` (lines 7-33): NULL in, NULL out (modelled
at the call sites); an empty string yields a fresh empty string; otherwise a
fresh string with `result[i] = input[len − 1 − i]`. -/
def flipper_transform (input_to_flip : List Char) : Option (List Char) :=
  let input_len := input_to_flip.length
  if input_len = 0 then some []
  else some ((List.range input_len).map
    (fun i => input_to_flip.getD (input_len - 1 - i) ' '))

theorem flipper_transform_eq (s : List Char) :
    flipper_transform s = some s.reverse := by
  unfold flipper_transform
  by_cases h0 : s.length = 0
  · rw [if_pos h0]
    rw [List.length_eq_zero] at h0
    subst h0
    rfl
  · rw [if_neg h0]
    congr 1
    apply List.ext_getElem
    · simp
    · intro i h1 h2
      simp only [List.getElem_map, List.getElem_range, List.getElem_reverse]
      have hb : s.length - 1 - i < s.length := by
        simp only [List.length_map, List.length_range] at h1
        omega
      rw [List.getD_eq_getElem s ' ' hb]

/-! ## Claims C1 (sentinel handling), C9 (flipper involution) -/

/-- C1 counterexample: with the flipper transformation attached to a
downstream stage, the queue contents `[">DNE<", "<END>"]` make the stage
emit the sentinel twice, because `flipper(">DNE<") = "<END>"` is forwarded
as an ordinary record before the real sentinel arrives.  This refutes the
claimed consequence that each stage emits the sentinel at most once. -/
theorem C1_counterexample :
    (plugin_consumer_loop flipper_transform true [">DNE<".toList, sentinel]).1 =
      [sentinel, sentinel] ∧
    ((plugin_consumer_loop flipper_transform true
        [">DNE<".toList, sentinel]).1.count sentinel) = 2 := by
  constructor <;> decide

/-- C1 (amended): when a stage worker dequeues the sentinel it invokes the
downstream callback with the sentinel exactly when one is attached, signals
finished, and exits without invoking the transformation and without
processing any later record; and provided the transformation never maps a
non-sentinel record to the sentinel, the stage's output contains the
sentinel at most once, as its last record. -/
theorem C1_sentinel_handling :
    (∀ (tr : List Char → Option (List Char)) (hasNext : Bool)
        (rest : List (List Char)),
      plugin_consumer_loop tr hasNext (sentinel :: rest) =
        ((if hasNext then [sentinel] else []), true)) ∧
    (∀ (tr : List Char → Option (List Char)) (hasNext : Bool)
        (input : List (List Char)),
      (∀ r p, r ≠ sentinel → tr r = some p → p ≠ sentinel) →
      (plugin_consumer_loop tr hasNext input).1.count sentinel ≤ 1 ∧
      (sentinel ∈ (plugin_consumer_loop tr hasNext input).1 →
        (plugin_consumer_loop tr hasNext input).1.getLast? = some sentinel)) := by
  refine ⟨plugin_consumer_loop_sentinel, ?_⟩
  intro tr hasNext input htr
  induction input with
  | nil =>
    constructor
    · show ([] : List (List Char)).count sentinel ≤ 1
      simp
    · intro hmem
      exact absurd hmem (by simp [plugin_consumer_loop])
  | cons r rest ih =>
    by_cases hr : r = sentinel
    · subst hr
      rw [plugin_consumer_loop_sentinel]
      cases hasNext <;> simp
    · cases hp : tr r with
      | none =>
        rw [plugin_consumer_loop_skip hr hp]
        exact ih
      | some p =>
        have hpne : p ≠ sentinel := htr r p hr hp
        rw [plugin_consumer_loop_step hr hp]
        obtain ⟨ih1, ih2⟩ := ih
        cases hasNext with
        | false => exact ⟨ih1, ih2⟩
        | true =>
          simp only [if_pos]
          constructor
          · rw [List.count_cons_of_ne (Ne.symm hpne)]
            exact ih1
          · intro hmem
            rcases List.mem_cons.mp hmem with hps | hmem'
            · exact absurd hps.symm hpne
            · have hlast := ih2 hmem'
              have hne : (plugin_consumer_loop tr true rest).1 ≠ [] := by
                intro hnil
                rw [hnil] at hmem'
                exact absurd hmem' (by simp)
              obtain ⟨b, l, hbl⟩ := List.exists_cons_of_ne_nil hne
              rw [hbl]
              rw [hbl] at hlast
              rw [List.getLast?_cons_cons]
              exact hlast

theorem C1_sentinel_handling_witness :
    plugin_consumer_loop (fun _ => none) true [sentinel] = ([sentinel], true) ∧
    (plugin_consumer_loop (fun _ => none) true [sentinel]).1.count sentinel ≤ 1 :=
  ⟨C1_sentinel_handling.1 (fun _ => none) true [],
   (C1_sentinel_handling.2 (fun _ => none) true [sentinel]
      (fun r p _ h2 => absurd h2 (by simp))).1⟩

/-- C9: for every string `s`, applying the flipper transformation twice
yields `s` again — flipper composed with flipper is the identity. -/
theorem C9_flipper_involution (s : List Char) :
    (flipper_transform s).bind flipper_transform = some s := by
  rw [flipper_transform_eq, Option.some_bind, flipper_transform_eq,
    List.reverse_reverse]

/-! ## Claim C5: get versus the finished flag

One iteration of the `while(1)` retry loop of `consumer_producer_get`
(consumer_producer.c lines 249-294): with the guard held, if `count > 0`
remove and return the head record; otherwise release the guard, call
`monitor_reset(&queue->not_empty_monitor)` and park in
`monitor_wait`.  Nothing in the loop reads any finished flag. -/

inductive GetIterOutcome (α : Type) where
  | ret : Option α → CPQueue α → GetIterOutcome α
  | parked : CPQueue α → Monitor → GetIterOutcome α

/-- One iteration of the retry loop of `consumer_producer_get`: either the
record is returned, or the caller resets `not_empty` and parks on it. -/
def consumer_producer_get_iter (q : CPQueue α) (not_empty : Monitor) :
    GetIterOutcome α :=
  if 0 < q.count then GetIterOutcome.ret q.removeRecord.1 q.removeRecord.2
  else GetIterOutcome.parked q (monitor_reset not_empty)

/-- C5 (code bug): the specification says a getter blocked on an empty
buffer unblocks once the owning worker's finished flag is set, `get`
returning "no record" for orderly exit — and `plugin_consumer_thread`
(plugin_common.c lines 94-107) indeed expects a NULL return at shutdown.
But `consumer_producer_get` never consults the flag: the `finished`
argument below does not occur in the conclusion, which shows that even
after `plugin_fini` sets the flag and signals `not_empty`
(plugin_common.c lines 383-391), the retry iteration on an empty buffer
resets the monitor — erasing that wake-up signal — and parks on the now
unsignaled monitor, whose `monitor_wait` has no success continuation; the
sequential `consumer_producer_get` likewise has no completing path
(`none`), rather than returning "no record". -/
theorem C5_get_ignores_finished (finished : Bool) (q : CPQueue (List Char))
    (ne : Monitor) (hempty : q.count = 0) :
    consumer_producer_get_iter q (monitor_signal ne) =
      GetIterOutcome.parked q ⟨false⟩ ∧
    monitor_wait (⟨false⟩ : Monitor) = none ∧
    consumer_producer_get q = none := by
  refine ⟨?_, rfl, ?_⟩
  · unfold consumer_producer_get_iter
    rw [hempty]
    rfl
  · unfold consumer_producer_get
    rw [hempty]
    rfl

theorem C5_get_ignores_finished_witness :
    witQ0.count = 0 ∧
    (consumer_producer_get_iter witQ0 (monitor_signal ⟨false⟩) =
        GetIterOutcome.parked witQ0 ⟨false⟩ ∧
      monitor_wait (⟨false⟩ : Monitor) = none ∧
      consumer_producer_get witQ0 = none) :=
  ⟨rfl, C5_get_ignores_finished true witQ0 ⟨false⟩ rfl⟩

/-! ## Claim C6: capacity validation (src/main.c `parse_queue_size_arg`,
consumer_producer.c `consumer_producer_init`)

The digit loop of `parse_queue_size_arg` (main.c lines 158-171) walks the
argument until NUL or index 256 (`MAX_FILE_NAME_LENGTH`), rejects any
non-digit, and accumulates `parse_result * 10 + digit` in a C `long`,
embedded as unbounded `Int` (on every accepted input the value is at most
10^6 so the `long` never overflows; inputs that would overflow the `long`
have undefined behaviour in C and are not modelled). -/

def parse_digits : List Char → Nat → Int → Option Int
  | [], _, acc => some acc
  | c :: rest, i, acc =>
    if 256 ≤ i then some acc
    else if c < '0' ∨ '9' < c then none
    else parse_digits rest (i + 1) (acc * 10 + ((c.toNat : Int) - ('0'.toNat : Int)))

/-- main.c `parse_queue_size_arg` (lines 146-180): NULL and empty strings
are rejected, the digit loop runs, and the result is rejected unless
`0 < value ≤ 1000000`.  `-1` is the rejection value, as in the source. -/
def parse_queue_size_arg (argument_string : List Char) : Int :=
  if argument_string = [] then -1
  else
    (parse_digits argument_string 0 0).elim (-1)
      (fun v => if v ≤ 0 ∨ 1000000 < v then -1 else v)

/-- Mathematical value of a digit string, as accumulated by the parse
loop. -/
def digitsVal (l : List Char) : Int :=
  l.foldl (fun acc c => acc * 10 + ((c.toNat : Int) - ('0'.toNat : Int))) 0

theorem parse_digits_all_digits (l : List Char) : ∀ (i : Nat) (acc : Int),
    (∀ c ∈ l, '0' ≤ c ∧ c ≤ '9') → i + l.length ≤ 256 →
    parse_digits l i acc =
      some (l.foldl (fun a c => a * 10 + ((c.toNat : Int) - ('0'.toNat : Int))) acc) := by
  induction l with
  | nil => intro i acc _ _; rfl
  | cons c rest ih =>
    intro i acc hdig hlen
    obtain ⟨hc0, hc9⟩ := hdig c (List.mem_cons_self c rest)
    show parse_digits (c :: rest) i acc = _
    unfold parse_digits
    rw [if_neg (by simp at hlen ⊢; omega)]
    rw [if_neg (by
      push_neg
      exact ⟨hc0, hc9⟩)]
    rw [ih (i + 1) _ (fun d hd => hdig d (List.mem_cons_of_mem c hd)) (by simp at hlen ⊢; omega)]
    rfl

/-- C6 counterexample: capacity 1000001 lies outside `[1, 1000000]`; the
claim says buffer initialization rejects it with `InvalidCapacity`, but
`consumer_producer_init` succeeds on it (only `capacity <= 0` is checked
there) — command-line parsing does reject it. -/
theorem C6_counterexample :
    consumer_producer_init (List Char) 1000001 =
      .ok ⟨1000001, 0, 0, 0, fun _ => none⟩ ∧
    parse_queue_size_arg ['1', '0', '0', '0', '0', '0', '1'] = -1 := by
  constructor
  · rfl
  · decide

/-- C6 (amended): command-line parsing accepts exactly the in-range values:
any accepted parse result lies in `[1, 1000000]`, and every all-digit
argument whose value lies in that range parses to its value; buffer
initialization, by contrast, rejects only `capacity ≤ 0`, so every
capacity `≥ 1` — including values above 1000000 — passes its validation. -/
theorem C6_capacity_validation :
    (∀ c : Int,
      (∃ q : CPQueue (List Char), consumer_producer_init (List Char) c = .ok q) ↔ 1 ≤ c) ∧
    (∀ s : List Char, parse_queue_size_arg s ≠ -1 →
      1 ≤ parse_queue_size_arg s ∧ parse_queue_size_arg s ≤ 1000000) ∧
    (∀ s : List Char, s ≠ [] → (∀ c ∈ s, '0' ≤ c ∧ c ≤ '9') → s.length ≤ 256 →
      1 ≤ digitsVal s → digitsVal s ≤ 1000000 →
      parse_queue_size_arg s = digitsVal s) := by
  refine ⟨?_, ?_, ?_⟩
  · intro c
    unfold consumer_producer_init
    by_cases hc : c ≤ 0
    · rw [if_pos hc]
      constructor
      · rintro ⟨q, hq⟩
        exact absurd hq (by simp)
      · intro h1
        omega
    · rw [if_neg hc]
      exact ⟨fun _ => by omega, fun _ => ⟨_, rfl⟩⟩
  · intro s
    cases s with
    | nil =>
      intro hne
      exact absurd rfl hne
    | cons c rest =>
      unfold parse_queue_size_arg
      rw [if_neg (List.cons_ne_nil c rest)]
      cases hpd : parse_digits (c :: rest) 0 0 with
      | none =>
        intro hne
        exact absurd rfl hne
      | some v =>
        intro hne
        change (if v ≤ 0 ∨ 1000000 < v then (-1 : Int) else v) ≠ -1 at hne
        change 1 ≤ (if v ≤ 0 ∨ 1000000 < v then (-1 : Int) else v) ∧
          (if v ≤ 0 ∨ 1000000 < v then (-1 : Int) else v) ≤ 1000000
        by_cases hv : v ≤ 0 ∨ 1000000 < v
        · rw [if_pos hv] at hne
          exact absurd rfl hne
        · rw [if_neg hv] at hne ⊢
          push_neg at hv
          omega
  · intro s hne hdig hlen h1 h2
    cases s with
    | nil => exact absurd rfl hne
    | cons c rest =>
      unfold parse_queue_size_arg
      rw [if_neg (List.cons_ne_nil c rest),
        parse_digits_all_digits (c :: rest) 0 0 hdig (by omega)]
      change (if digitsVal (c :: rest) ≤ 0 ∨ 1000000 < digitsVal (c :: rest)
          then (-1 : Int) else digitsVal (c :: rest)) = digitsVal (c :: rest)
      rw [if_neg (by push_neg; constructor <;> omega)]

theorem C6_capacity_validation_witness :
    (1 ≤ parse_queue_size_arg ['4', '2'] ∧ parse_queue_size_arg ['4', '2'] ≤ 1000000) ∧
    parse_queue_size_arg ['4', '2'] = digitsVal ['4', '2'] ∧
    ((∃ q : CPQueue (List Char), consumer_producer_init (List Char) 7 = .ok q) ↔ 1 ≤ (7 : Int)) :=
  ⟨C6_capacity_validation.2.1 ['4', '2'] (by decide),
   C6_capacity_validation.2.2 ['4', '2'] (by decide) (by decide) (by decide)
     (by decide) (by decide),
   C6_capacity_validation.1 7⟩

/-! ## Claim C7: stdin reading (src/main.c `read_input_and_process`)

`read_input_and_process` reads with `fgets(buffer, 1024, stdin)` — at most
1023 characters per call, stopping after a newline — strips a trailing
newline if present, submits the chunk to stage 0 and stops after
submitting `<END>` (main.c lines 380-432, `Max_line_length` = 1024 at line
16).  `takeLine n input` is the fgets chunking: the shortest prefix that
either ends at a newline or reaches `n` characters. -/

def Max_line_length : Nat := 1024

def takeLine : Nat → List Char → List Char × List Char
  | 0, rest => ([], rest)
  | _ + 1, [] => ([], [])
  | n + 1, c :: rest =>
    if c = '\n' then ([c], rest)
    else
      let p := takeLine n rest
      (c :: p.1, p.2)

theorem takeLine_snd_le : ∀ (n : Nat) (l : List Char),
    (takeLine n l).2.length ≤ l.length := by
  intro n
  induction n with
  | zero => intro l; exact Nat.le_refl _
  | succ k ih =>
    intro l
    cases l with
    | nil => exact Nat.zero_le _
    | cons c rest =>
      show (if c = '\n' then ([c], rest)
            else let p := takeLine k rest; (c :: p.1, p.2)).2.length ≤ rest.length + 1
      by_cases hc : c = '\n'
      · rw [if_pos hc]
        exact Nat.le_succ _
      · rw [if_neg hc]
        exact le_trans (ih rest) (Nat.le_succ _)

theorem takeLine_pos_consumes (n : Nat) (c : Char) (rest : List Char) (hn : 0 < n) :
    (takeLine n (c :: rest)).2.length ≤ rest.length := by
  cases n with
  | zero => omega
  | succ k =>
    show (if c = '\n' then ([c], rest)
          else let p := takeLine k rest; (c :: p.1, p.2)).2.length ≤ rest.length
    by_cases hc : c = '\n'
    · rw [if_pos hc]
    · rw [if_neg hc]
      exact takeLine_snd_le k rest

/-- main.c lines 393-398: if the chunk ends in a newline, overwrite it with
NUL — i.e. drop the trailing newline. -/
def strip_trailing_newline (l : List Char) : List Char :=
  if l.getLast? = some '\n' then l.dropLast else l

/-- main.c `read_input_and_process` (lines 380-432): read chunks of at most
1023 characters with fgets, strip a trailing newline, submit each chunk as
a record to stage 0, and stop after submitting the record `<END>` (or at
end of input; no `<END>` is synthesized — the commented-out block at lines
421-428).  Returns the sequence of submitted records. -/
def read_input_and_process : List Char → List (List Char)
  | [] => []
  | c :: rest =>
    let p := takeLine (Max_line_length - 1) (c :: rest)
    let record := strip_trailing_newline p.1
    if record = sentinel then [record]
    else record :: read_input_and_process p.2
  termination_by input => input.length
  decreasing_by
    simp_wf
    have h := takeLine_pos_consumes (Max_line_length - 1) c rest (by norm_num [Max_line_length])
    have h2 : (c :: rest).length = rest.length + 1 := List.length_cons c rest
    omega

theorem read_input_and_process_nil : read_input_and_process [] = [] := by
  simp only [read_input_and_process]

theorem takeLine_no_newline (l : List Char) : ∀ (n : Nat) (rest : List Char),
    '\n' ∉ l → l.length < n →
    takeLine n (l ++ '\n' :: rest) = (l ++ ['\n'], rest) := by
  induction l with
  | nil =>
    intro n rest _ hn
    cases n with
    | zero => omega
    | succ k =>
      show (if '\n' = '\n' then (['\n'], rest)
            else let p := takeLine k ([] ++ '\n' :: rest); ('\n' :: p.1, p.2)) = (['\n'], rest)
      rw [if_pos rfl]
  | cons c l ih =>
    intro n rest hmem hn
    cases n with
    | zero => exact absurd hn (by omega)
    | succ k =>
      have hc : c ≠ '\n' := fun h => hmem (by rw [h]; exact List.mem_cons_self _ _)
      show (if c = '\n' then ([c], l ++ '\n' :: rest)
            else let p := takeLine k (l ++ '\n' :: rest); (c :: p.1, p.2)) = _
      rw [if_neg hc]
      rw [ih k rest (fun h => hmem (List.mem_cons_of_mem c h)) (by simp at hn ⊢; omega)]
      rfl

theorem takeLine_replicate (x : Char) (hx : x ≠ '\n') : ∀ (n m : Nat) (t : List Char),
    n ≤ m →
    takeLine n (List.replicate m x ++ t) =
      (List.replicate n x, List.replicate (m - n) x ++ t) := by
  intro n
  induction n with
  | zero => intro m t _; rfl
  | succ k ih =>
    intro m t h
    cases m with
    | zero => omega
    | succ j =>
      show takeLine (k + 1) (x :: (List.replicate j x ++ t)) = _
      show (if x = '\n' then ([x], List.replicate j x ++ t)
            else let p := takeLine k (List.replicate j x ++ t); (x :: p.1, p.2)) = _
      rw [if_neg hx]
      rw [ih j t (by omega)]
      have hsub : j + 1 - (k + 1) = j - k := by omega
      rw [hsub]
      rfl

theorem strip_append_newline (l : List Char) :
    strip_trailing_newline (l ++ ['\n']) = l := by
  unfold strip_trailing_newline
  rw [if_pos (by rw [List.getLast?_concat])]
  exact List.dropLast_concat

theorem getLast?_replicate_ne (x : Char) : ∀ n : Nat, 0 < n →
    (List.replicate n x).getLast? = some x := by
  intro n
  induction n with
  | zero => omega
  | succ k ih =>
    intro _
    cases k with
    | zero => rfl
    | succ j =>
      rw [List.replicate_succ, List.replicate_succ, List.getLast?_cons_cons,
        ← List.replicate_succ]
      exact ih (by omega)

/-- A line whose content (≤ 1022 characters, no interior newline) fits the
1024-byte fgets buffer together with its terminator becomes exactly one
record, with the newline stripped; reading then continues after it. -/
theorem read_short_line (l rest : List Char) (hlen : l.length ≤ 1022)
    (hnl : '\n' ∉ l) :
    read_input_and_process (l ++ '\n' :: rest) =
      if l = sentinel then [l] else l :: read_input_and_process rest := by
  cases l with
  | nil =>
    have htake := takeLine_no_newline [] (Max_line_length - 1) rest hnl
      (by norm_num [Max_line_length])
    simp only [List.nil_append] at htake
    rw [List.nil_append]
    simp only [read_input_and_process]
    have hstrip : strip_trailing_newline ['\n'] = [] := by decide
    simp only [htake, hstrip]
  | cons c l' =>
    have htake := takeLine_no_newline (c :: l') (Max_line_length - 1) rest hnl
      (by simp at hlen ⊢; norm_num [Max_line_length]; omega)
    rw [List.cons_append] at htake
    rw [List.cons_append]
    simp only [read_input_and_process]
    simp only [htake, strip_append_newline]

/-- A line of at least 1023 characters is split: the first fgets call
returns a 1023-character chunk with no newline to strip, which is submitted
as its own record, and reading continues inside the line. -/
theorem read_long_line (m : Nat) (t : List Char) (hm : 1023 ≤ m) :
    read_input_and_process (List.replicate m 'a' ++ '\n' :: t) =
      List.replicate 1023 'a' ::
        read_input_and_process (List.replicate (m - 1023) 'a' ++ '\n' :: t) := by
  obtain ⟨j, rfl⟩ : ∃ j, m = j + 1 := ⟨m - 1, by omega⟩
  have htake := takeLine_replicate 'a' (by decide) (Max_line_length - 1) (j + 1)
    ('\n' :: t) (by norm_num [Max_line_length]; omega)
  rw [List.replicate_succ, List.cons_append] at htake
  rw [List.replicate_succ, List.cons_append]
  simp only [read_input_and_process]
  have hstrip : strip_trailing_newline (List.replicate (Max_line_length - 1) 'a') =
      List.replicate (Max_line_length - 1) 'a' := by
    unfold strip_trailing_newline
    rw [if_neg (by
      rw [getLast?_replicate_ne 'a' (Max_line_length - 1) (by norm_num [Max_line_length])]
      decide)]
  have hnotsent : List.replicate (Max_line_length - 1) 'a' ≠ sentinel := by
    intro h
    have hlen := congrArg List.length h
    rw [List.length_replicate] at hlen
    exact absurd hlen (by decide)
  simp only [htake, hstrip]
  rw [if_neg hnotsent]
  show _ = List.replicate 1023 'a' :: read_input_and_process
    (List.replicate (j + 1 - 1023) 'a' ++ '\n' :: t)
  norm_num [Max_line_length]

/-- C7 counterexample: a single 2000-character line (one line terminator at
its end) does not become one record: it is split at the 1023-character
fgets boundary into two records, neither equal to the original line. -/
theorem C7_counterexample :
    read_input_and_process (List.replicate 2000 'a' ++ '\n' :: []) =
      [List.replicate 1023 'a', List.replicate 977 'a'] ∧
    (read_input_and_process (List.replicate 2000 'a' ++ '\n' :: [])).length = 2 := by
  have h1 := read_long_line 2000 [] (by norm_num)
  norm_num at h1
  have h2 := read_short_line (List.replicate 977 'a') []
    (by rw [List.length_replicate]; omega)
    (fun hmem => absurd (List.eq_of_mem_replicate hmem) (by decide))
  have hns : List.replicate 977 'a' ≠ sentinel := by
    intro h
    have hl := congrArg List.length h
    rw [List.length_replicate] at hl
    exact absurd hl (by decide)
  rw [if_neg hns] at h2
  rw [h1, h2, read_input_and_process_nil]
  exact ⟨rfl, rfl⟩

/-- C7 (amended): every input line whose content is at most 1022 characters
becomes exactly one record with its trailing newline stripped (submission
stops after the sentinel); a longer line is split at 1023-character
boundaries into several records, so a multi-kilobyte line is not conveyed
as a single record. -/
theorem C7_line_records (l rest : List Char) (hlen : l.length ≤ 1022)
    (hnl : '\n' ∉ l) :
    read_input_and_process (l ++ '\n' :: rest) =
      if l = sentinel then [l] else l :: read_input_and_process rest :=
  read_short_line l rest hlen hnl

theorem C7_line_records_witness :
    read_input_and_process (['h', 'i'] ++ '\n' :: []) =
      (if ['h', 'i'] = sentinel then [['h', 'i']]
       else ['h', 'i'] :: read_input_and_process []) :=
  C7_line_records ['h', 'i'] [] (by decide) (by decide)

/-! ## Heap model for the allocation/ownership claims (C8, C10)

A heap is a bump allocator: `size` cells have been handed out, a cell is
`some bytes` while live and `none` once freed (or never allocated).
`malloc`/`strdup` return the next fresh address; `free` kills a cell.  The
ring buffer instantiated at `Addr` carries `char*` values exactly as the C
`consumer_producer_t` does. -/

abbrev Addr := Nat

structure Heap where
  size : Nat
  cells : Nat → Option (List Char)

def Heap.read (h : Heap) (a : Addr) : Option (List Char) :=
  if a < h.size then h.cells a else none

def Heap.alloc (h : Heap) (v : List Char) : Heap × Addr :=
  (⟨h.size + 1, fun j => if j = h.size then some v else h.cells j⟩, h.size)

def Heap.free (h : Heap) (a : Addr) : Heap :=
  ⟨h.size, fun j => if j = a then none else h.cells j⟩

/-- `strdup(item)`: read the bytes at `item` and allocate a fresh cell
holding a copy of them (`none` if `item` is not a live string). -/
def strdup (h : Heap) (a : Addr) : Option (Heap × Addr) :=
  (h.read a).map (fun v => h.alloc v)

/-- consumer_producer.c `consumer_producer_put`, allocation-level view
(lines 133-157): when space exists, `copy_of_item = strdup(item)` and the
fresh copy's address — not the passed address — is stored at the tail. -/
def consumer_producer_put_heap (h : Heap) (q : CPQueue Addr) (item : Addr) :
    Option (Heap × CPQueue Addr) :=
  if q.count < q.capacity then
    (strdup h item).map (fun p => (p.1, q.insertRecord p.2))
  else none

/-- plugin_common.c lines 156-164, the worker's hand-off of a processed
record: `forward_to_next_plugin` invokes the next stage's
`plugin_place_work`, which calls `consumer_producer_put` on the next queue
(copying the bytes); then the worker frees the processed string if it is a
different object from the input, and always frees the input string. -/
def forward_and_free (h : Heap) (nextq : CPQueue Addr) (processed input : Addr) :
    Option (Heap × CPQueue Addr) :=
  (consumer_producer_put_heap h nextq processed).map (fun p =>
    let h2 := if processed ≠ input then p.1.free processed else p.1
    (h2.free input, p.2))

theorem Heap.lt_of_read {h : Heap} {a : Addr} {v : List Char}
    (hr : h.read a = some v) : a < h.size := by
  unfold Heap.read at hr
  by_cases hlt : a < h.size
  · exact hlt
  · rw [if_neg hlt] at hr
    exact absurd hr (by simp)

theorem Heap.read_alloc_fresh (h : Heap) (v : List Char) :
    (h.alloc v).1.read (h.alloc v).2 = some v := by
  show (if h.size < h.size + 1 then
    (if h.size = h.size then some v else h.cells h.size) else none) = some v
  rw [if_pos (Nat.lt_succ_self _), if_pos rfl]

theorem Heap.read_alloc_old (h : Heap) (v : List Char) {a : Addr}
    (ha : a < h.size) :
    (h.alloc v).1.read a = h.read a := by
  show (if a < h.size + 1 then
    (if a = h.size then some v else h.cells a) else none) = h.read a
  rw [if_pos (Nat.lt_succ_of_lt ha), if_neg (Nat.ne_of_lt ha)]
  unfold Heap.read
  rw [if_pos ha]

theorem Heap.read_free_ne (h : Heap) {a b : Addr} (hne : b ≠ a) :
    (h.free a).read b = h.read b := by
  show (if b < h.size then (if b = a then none else h.cells b) else none) = h.read b
  unfold Heap.read
  by_cases hb : b < h.size
  · rw [if_pos hb, if_pos hb, if_neg hne]
  · rw [if_neg hb, if_neg hb]

/-- C8 counterexample: a stage state with the input string at address 0,
its processed string at address 1, and an empty downstream buffer of
capacity 1.  The worker's hand-off (plugin_common.c lines 156-164) first
puts address 1 into the next queue — which stores the fresh copy at address
2 — and then the caller itself frees address 1, the very bytes it just
passed to the successful put, and address 0.  The caller thus still owned
(and was obliged to free) the bytes it passed, refuting "after a successful
put the caller no longer owns the bytes it passed"; the buffer owns only
the distinct copy at address 2, which survives. -/
theorem C8_counterexample :
    ((forward_and_free
        ⟨2, fun j => if j = 0 then some "abc".toList
                     else if j = 1 then some "ABC".toList else none⟩
        ⟨1, 0, 0, 0, fun _ => none⟩ 1 0).map
      (fun p => (p.1.read 1, p.1.read 0, p.1.read 2, p.2.items 0))) =
      some (none, none, some "ABC".toList, some 2) := by
  decide

/-- C8 (amended): a successful `consumer_producer_put` appends at the tail
the address of a freshly allocated copy of the passed bytes — byte-for-byte
equal, at a new address distinct from the passed one — and leaves the
caller's string unmodified; the caller retains ownership of the bytes it
passed (the worker code itself frees them after forwarding, and that free
leaves the buffer's copy intact). -/
theorem C8_put_copies (h : Heap) (q : CPQueue Addr) (item : Addr)
    (v : List Char) (hread : h.read item = some v)
    (hfit : q.count < q.capacity) :
    consumer_producer_put_heap h q item =
      some ((h.alloc v).1, q.insertRecord (h.alloc v).2) ∧
    (h.alloc v).1.read (h.alloc v).2 = some v ∧
    (h.alloc v).2 ≠ item ∧
    (h.alloc v).1.read item = some v ∧
    (q.insertRecord (h.alloc v).2).items q.tail = some (h.alloc v).2 ∧
    ((h.alloc v).1.free item).read (h.alloc v).2 = some v := by
  have hlt : item < h.size := Heap.lt_of_read hread
  refine ⟨?_, Heap.read_alloc_fresh h v, Nat.ne_of_gt hlt, ?_, ?_, ?_⟩
  · unfold consumer_producer_put_heap strdup
    rw [if_pos hfit, hread]
    rfl
  · rw [Heap.read_alloc_old h v hlt]
    exact hread
  · show (if q.tail = q.tail then some (h.alloc v).2 else q.items q.tail) =
      some (h.alloc v).2
    rw [if_pos rfl]
  · show ((h.alloc v).1.free item).read h.size = some v
    rw [Heap.read_free_ne _ (Nat.ne_of_gt hlt)]
    exact Heap.read_alloc_fresh h v

theorem C8_put_copies_witness :
    (consumer_producer_put_heap ⟨1, fun j => if j = 0 then some "ab".toList else none⟩
        ⟨1, 0, 0, 0, fun _ => none⟩ 0 =
      some ((Heap.alloc ⟨1, fun j => if j = 0 then some "ab".toList else none⟩ "ab".toList).1,
        CPQueue.insertRecord ⟨1, 0, 0, 0, fun _ => none⟩
          (Heap.alloc ⟨1, fun j => if j = 0 then some "ab".toList else none⟩ "ab".toList).2)) ∧
    (Heap.alloc ⟨1, fun j => if j = 0 then some "ab".toList else none⟩ "ab".toList).1.read
      (Heap.alloc ⟨1, fun j => if j = 0 then some "ab".toList else none⟩ "ab".toList).2 =
      some "ab".toList :=
  ⟨(C8_put_copies ⟨1, fun j => if j = 0 then some "ab".toList else none⟩
      ⟨1, 0, 0, 0, fun _ => none⟩ 0 "ab".toList rfl (by decide)).1,
   (C8_put_copies ⟨1, fun j => if j = 0 then some "ab".toList else none⟩
      ⟨1, 0, 0, 0, fun _ => none⟩ 0 "ab".toList rfl (by decide)).2.1⟩

/-! ## Typewriter plugin (src/plugins/typewriter.c) -/

/-- typewriter.c `typewriter_transform` (lines 12-51): NULL in, NULL out;
otherwise it prints "[typewriter] ", then the input, then a newline to
standard output character by character (the `usleep` delays have no effect
on the data), and returns a `malloc`/`strcpy` copy of the input.  The
result is the emitted standard-output text together with the new heap and
the returned address. -/
def typewriter_transform (h : Heap) (a : Addr) :
    Option (List Char × Heap × Addr) :=
  (h.read a).map (fun s => ("[typewriter] ".toList ++ s ++ ['\n'], h.alloc s))

/-- C10: for every live (non-null) input string `s`, the typewriter
transformation returns a newly allocated string byte-for-byte equal to `s`
— it is the identity on the record payload — while its typing effect is
confined to the standard-output text `"[typewriter] " ++ s ++ "\n"`; the
input string itself is left unmodified. -/
theorem C10_typewriter_identity (h : Heap) (a : Addr) (s : List Char)
    (hread : h.read a = some s) :
    typewriter_transform h a =
      some ("[typewriter] ".toList ++ s ++ ['\n'], h.alloc s) ∧
    (h.alloc s).1.read (h.alloc s).2 = some s ∧
    (h.alloc s).2 ≠ a ∧
    (h.alloc s).1.read a = some s := by
  have hlt : a < h.size := Heap.lt_of_read hread
  refine ⟨?_, Heap.read_alloc_fresh h s, Nat.ne_of_gt hlt, ?_⟩
  · unfold typewriter_transform
    rw [hread]
    rfl
  · rw [Heap.read_alloc_old h s hlt]
    exact hread

theorem C10_typewriter_identity_witness :
    typewriter_transform ⟨1, fun j => if j = 0 then some "hi".toList else none⟩ 0 =
      some ("[typewriter] ".toList ++ "hi".toList ++ ['\n'],
        Heap.alloc ⟨1, fun j => if j = 0 then some "hi".toList else none⟩ "hi".toList) ∧
    (Heap.alloc ⟨1, fun j => if j = 0 then some "hi".toList else none⟩ "hi".toList).1.read
      (Heap.alloc ⟨1, fun j => if j = 0 then some "hi".toList else none⟩ "hi".toList).2 =
      some "hi".toList :=
  ⟨(C10_typewriter_identity ⟨1, fun j => if j = 0 then some "hi".toList else none⟩
      0 "hi".toList rfl).1,
   (C10_typewriter_identity ⟨1, fun j => if j = 0 then some "hi".toList else none⟩
      0 "hi".toList rfl).2.1⟩

end Pipeline
